import Mathlib

/-!
Verification of the shunting-yard calculator core (src/app.js).

The embedding models the JavaScript semantics the source relies on:

* A value flowing through the containers is either a string or the value
  `undefined` (`JVal.undefined`): `Stack.pop` / `Queue.dequeue` / `Stack.peek`
  on an empty container return `undefined` rather than raising.
* JavaScript numbers are modelled by `JNum`: an exact rational, a signed
  infinity, or NaN.  All inputs reachable here are small integers, for which
  IEEE double arithmetic is exact, so the rational model coincides with the
  source's arithmetic; signed zero is collapsed to `0`.
* The numeric tests in the source are JavaScript coercions:
  `!isNaN(t)` on a string trims whitespace from both ends and accepts a
  (possibly empty) digit string; on `undefined` it is false.  This covers
  every token shape the tokenizer can produce (digit/whitespace buffers and
  single-character symbols).
* `parseFloat` skips leading whitespace and reads the longest digit prefix,
  giving NaN when there is none; `parseFloat(undefined)` is NaN.
-/

namespace SYCalc

/-- Value of the calculator's containers: a JavaScript string or `undefined`. -/
inductive JVal where
  | str : String → JVal
  | undefined : JVal
deriving DecidableEq, Repr

/-- Token for the plus operator. -/
def tokPlus : JVal := .str ("+")

/-- Token for the minus operator. -/
def tokMinus : JVal := .str ("-")

/-- Token for the multiplication operator. -/
def tokStar : JVal := .str ("*")

/-- Token for the division operator. -/
def tokSlash : JVal := .str ("/")

/-- Token for a left parenthesis. -/
def tokLP : JVal := .str ("(")

/-- Token for a right parenthesis. -/
def tokRP : JVal := .str (")")

/-- The empty string value, which the tokenizer filters out of its output. -/
def emptyTok : JVal := .str ("")

/-- Models `array[array.length - 1]` (JS `Stack.peek`): `undefined` when empty.
The stack is a list whose head is the top. -/
def jsPeek (s : List JVal) : JVal := s.headD .undefined

/-- Models JavaScript whitespace as skipped by Number coercion and parseFloat
(restricted to the ASCII whitespace relevant here). -/
def jsWhite (c : Char) : Bool := c.isWhitespace

/-- Trim JavaScript whitespace from both ends of a character list, as the
Number("...") coercion does before reading the literal. -/
def jsTrim (cs : List Char) : List Char :=
  ((cs.dropWhile jsWhite).reverse.dropWhile jsWhite).reverse

/-- Models the source's numeric test `!isNaN(t)` on a container value: false on
`undefined`; on a string, Number coercion trims whitespace and accepts a
possibly-empty digit string (the empty string coerces to 0). -/
def jvalIsNumeric : JVal → Bool
  | .undefined => false
  | .str s => (jsTrim s.toList).all Char.isDigit

/-- Models `!isNaN(input[i])` on a single character of the raw input: ASCII
digits are numeric, and whitespace coerces to 0 hence is also numeric. -/
def jsCharNumeric (c : Char) : Bool := c.isDigit || jsWhite c

/-- Numeric value of a digit list read in base 10. -/
def digitsVal (cs : List Char) : ℚ :=
  ((cs.foldl (fun n c => 10 * n + (c.toNat - 48)) 0 : ℕ) : ℚ)

/-- A JavaScript number: an exact rational, a signed infinity (`neg` is the
sign bit), or NaN. -/
inductive JNum where
  | fin : ℚ → JNum
  | inf : Bool → JNum
  | nan : JNum
deriving DecidableEq, Repr

/-- A number is finite exactly when it is neither an infinity nor NaN. -/
def JNum.isFinite : JNum → Bool
  | .fin _ => true
  | _ => false

/-- Models `parseFloat`: NaN on `undefined`; on a string, skip leading
whitespace and read the longest digit prefix, NaN if there is none.  (Full
parseFloat also reads signs, decimal points and exponents, but no token
reachable in this program contains those shapes.) -/
def jparseFloat : JVal → JNum
  | .undefined => .nan
  | .str s =>
    let ds := (s.toList.dropWhile jsWhite).takeWhile Char.isDigit
    if ds = [] then .nan else .fin (digitsVal ds)

/-- JavaScript addition on numbers. -/
def jadd : JNum → JNum → JNum
  | .nan, _ => .nan
  | _, .nan => .nan
  | .fin a, .fin b => .fin (a + b)
  | .fin _, .inf s => .inf s
  | .inf s, .fin _ => .inf s
  | .inf s, .inf t => if s = t then .inf s else .nan

/-- JavaScript subtraction on numbers. -/
def jsub : JNum → JNum → JNum
  | .nan, _ => .nan
  | _, .nan => .nan
  | .fin a, .fin b => .fin (a - b)
  | .fin _, .inf s => .inf (!s)
  | .inf s, .fin _ => .inf s
  | .inf s, .inf t => if s = t then .nan else .inf s

/-- JavaScript multiplication on numbers. -/
def jmul : JNum → JNum → JNum
  | .nan, _ => .nan
  | _, .nan => .nan
  | .fin a, .fin b => .fin (a * b)
  | .fin a, .inf s => if a = 0 then .nan else .inf (xor (decide (a < 0)) s)
  | .inf s, .fin b => if b = 0 then .nan else .inf (xor s (decide (b < 0)))
  | .inf s, .inf t => .inf (xor s t)

/-- Models JavaScript division: division by zero gives a signed infinity (or NaN
for 0/0) instead of raising; a finite number divided by an infinity gives 0. -/
def jdiv : JNum → JNum → JNum
  | .nan, _ => .nan
  | _, .nan => .nan
  | .fin a, .fin b =>
    if b = 0 then (if a = 0 then .nan else .inf (decide (a < 0)))
    else .fin (a / b)
  | .fin _, .inf _ => .fin 0
  | .inf s, .fin b => .inf (xor s (decide (b < 0)))
  | .inf _, .inf _ => .nan

/-- Models `getPrecedence` from the source: 1 for additive operators, 2 for
multiplicative ones, and the sentinel -1 for anything else (parentheses,
`undefined`, unrecognized tokens). -/
def getPrecedence (op : JVal) : Int :=
  if op = tokPlus ∨ op = tokMinus then 1
  else if op = tokStar ∨ op = tokSlash then 2
  else -1

/-! ## Tokenizer (`ShuntingYard.makeString`)

The source allocates `temp`, an array of `input.length` empty strings, and a
cursor `tempIndex`.  A numeric character is appended to `temp[tempIndex]`
with `.concat`; any other character executes `tempIndex++;
temp[tempIndex++] = token`, so each such character advances the cursor by two
slots.  Reading `temp[tempIndex]` past the populated region yields
`undefined`, and `undefined.concat(...)` throws a TypeError: that crash is
modelled by `none`.  Writing past the end of a JS array extends it, filling
the gap with holes that read back as `undefined`. -/

/-- Models reading `a[i]` from a JavaScript array: `undefined` out of range. -/
def jsArrayGet (a : List JVal) (i : Nat) : JVal := a.getD i .undefined

/-- Models writing `a[i] = v` on a JavaScript array: in-range writes update the
slot, writes past the end extend the array with `undefined` holes. -/
def jsArraySet (a : List JVal) (i : Nat) (v : JVal) : List JVal :=
  if i < a.length then a.set i v
  else a ++ List.replicate (i - a.length) .undefined ++ [v]

/-- Character loop of `makeString` over the input: `none` models the TypeError
thrown by `temp[tempIndex].concat(token)` when that slot is `undefined`. -/
def msLoop : List Char → List JVal → Nat → Option (List JVal)
  | [], temp, _ => some temp
  | c :: cs, temp, idx =>
    if jsCharNumeric c then
      match jsArrayGet temp idx with
      | .undefined => none
      | .str s => msLoop cs (jsArraySet temp idx (.str (s.push c))) idx
    else
      msLoop cs (jsArraySet temp (idx + 1) (.str (String.singleton c))) (idx + 2)

/-- Models `ShuntingYard.makeString`: tokenize the raw input, then enqueue every
entry of `temp` that is not the empty string (note that `undefined` holes are
not the empty string and are enqueued).  `none` models the TypeError crash. -/
def makeString (input : String) : Option (List JVal) :=
  (msLoop input.toList (List.replicate input.length emptyTok) 0).map
    (List.filter (fun t => t != emptyTok))

/-! ## Infix-to-postfix converter (`ShuntingYard.compute_infix`)

The operator stack is a list whose head is the top.  The loop for a `)` token
is `while (peek() !== "(") enqueue(pop()); pop()`: on an empty stack `peek()`
and `pop()` both return `undefined` and the stack stays empty, so the loop
never exits.  The structural model marks that branch `none`; the fuel machine
below makes the divergence precise. -/

/-- Models the operator-popping loop of an ordinary operator token:
`while (!s.isEmpty() && getPrecedence(t) <= getPrecedence(s.peek()))
q.enqueue(s.pop())`.  Returns the updated queue and stack. -/
def popGE (p : Int) : List JVal → List JVal → List JVal × List JVal
  | q, [] => (q, [])
  | q, x :: s => if p ≤ getPrecedence x then popGE p (q ++ [x]) s else (q, x :: s)

/-- Models the loop of a `)` token: pop to the queue until the top is a left
parenthesis, then discard it.  `none` marks the case where the stack runs out:
there the source's loop runs forever. -/
def popUntilLParen : List JVal → List JVal → Option (List JVal × List JVal)
  | _, [] => none
  | q, x :: s => if x = tokLP then some (q, s) else popUntilLParen (q ++ [x]) s

/-- Main token loop of `compute_infix` over the stream, carrying the output
queue and the operator stack; returns both when the stream is exhausted. -/
def syRun : List JVal → List JVal → List JVal → Option (List JVal × List JVal)
  | [], q, s => some (q, s)
  | t :: ts, q, s =>
    if jvalIsNumeric t then syRun ts (q ++ [t]) s
    else if t = tokLP then syRun ts q (t :: s)
    else if t = tokRP then
      match popUntilLParen q s with
      | none => none
      | some p => syRun ts p.1 p.2
    else
      syRun ts (popGE (getPrecedence t) q s).1 (t :: (popGE (getPrecedence t) q s).2)

/-- Models `ShuntingYard.compute_infix` on a token stream: run the main loop,
then flush the remaining operator stack to the output queue (popping the stack
appends it top-first, i.e. in list order).  `none` marks the diverging branch
of an unmatched right parenthesis. -/
def convertToRpn (ts : List JVal) : Option (List JVal) :=
  (syRun ts [] []).map (fun p => p.1 ++ p.2)

/-! ## Fuel-indexed converter

To reason about termination of `compute_infix` itself, the same machine is
replayed with explicit fuel: every iteration of the outer loop and of the
right-parenthesis inner loop consumes one unit.  The source's inner loop on an
empty stack enqueues `pop()` (= `undefined`) and repeats, which the fuel
machine reproduces literally. -/

/-- Fuel-indexed right-parenthesis loop.  One fuel unit per iteration; on an
empty stack it enqueues `undefined` and keeps spinning, so no amount of fuel
lets it finish. -/
def popUntilLParenF : Nat → List JVal → List JVal → Option (List JVal × List JVal)
  | 0, _, _ => none
  | n + 1, q, s =>
    if jsPeek s = tokLP then some (q, s.tail)
    else popUntilLParenF n (q ++ [jsPeek s]) s.tail

/-- Fuel-indexed main loop of `compute_infix`. -/
def syRunF : Nat → List JVal → List JVal → List JVal → Option (List JVal × List JVal)
  | 0, _, _, _ => none
  | _ + 1, [], q, s => some (q, s)
  | n + 1, t :: ts, q, s =>
    if jvalIsNumeric t then syRunF n ts (q ++ [t]) s
    else if t = tokLP then syRunF n ts q (t :: s)
    else if t = tokRP then
      match popUntilLParenF (n + 1) q s with
      | none => none
      | some p => syRunF n ts p.1 p.2
    else
      syRunF n ts (popGE (getPrecedence t) q s).1 (t :: (popGE (getPrecedence t) q s).2)

/-- Fuel-indexed `compute_infix`, including the final stack flush. -/
def convertToRpnF (n : Nat) (ts : List JVal) : Option (List JVal) :=
  (syRunF n ts [] []).map (fun p => p.1 ++ p.2)

/-! ## Postfix evaluator (`ShuntingYard.compute_rpn`)

The source's operand stack holds strings; every element is passed through
`parseFloat` exactly once, when it is popped, and results are pushed back via
`toString`.  Since `parseFloat` is pure and `parseFloat(x.toString()) = x` for
every JavaScript number (including infinities and NaN), the model stores the
parsed `JNum` directly. -/

/-- Models `parseFloat(stack.pop())`: popping an empty stack returns
`undefined`, whose parseFloat is NaN. -/
def popNum : List JNum → JNum × List JNum
  | [] => (.nan, [])
  | x :: st => (x, st)

/-- One iteration of the `compute_rpn` loop on operand stack `st` and token
`t`: numeric tokens are pushed; any other token pops `b` then `a` and the
`switch` pushes `a <op> b` for the four known operators and nothing otherwise. -/
def rpnStep (st : List JNum) (t : JVal) : List JNum :=
  if jvalIsNumeric t then jparseFloat t :: st
  else
    let b := (popNum st).1
    let st1 := (popNum st).2
    let a := (popNum st1).1
    let st2 := (popNum st1).2
    if t = tokMinus then jsub a b :: st2
    else if t = tokPlus then jadd a b :: st2
    else if t = tokStar then jmul a b :: st2
    else if t = tokSlash then jdiv a b :: st2
    else st2

/-- Models `ShuntingYard.compute_rpn`: drain the queue through `rpnStep`, then
return `parseFloat(stack.pop())` of the final stack. -/
def compute_rpn (q : List JVal) : JNum :=
  (popNum (q.foldl rpnStep [])).1

/-! ## Engine state and orchestration -/

/-- Internal buffers of a `ShuntingYard` instance: the token stream queue, the
output queue `q` and the operator stack `s`. -/
structure SYState where
  stream : List JVal
  q : List JVal
  s : List JVal
deriving DecidableEq, Repr

/-- Models the `ShuntingYard` constructor: all three buffers start empty. -/
def SYState.init : SYState := ⟨[], [], []⟩

/-- Models `ShuntingYard.clear`: the output queue and the operator stack are
replaced by fresh empty containers; the stream queue is not touched. -/
def SYState.clear (st : SYState) : SYState := { st with q := [], s := [] }

/-- Models the `calculate` pipeline on a raw input string: tokenize, convert to
postfix, evaluate.  `none` covers the tokenizer's TypeError crash and the
converter's diverging branch. -/
def evaluateExpression (input : String) : Option JNum :=
  (makeString input).bind (fun ts => (convertToRpn ts).map compute_rpn)

/-! ## Reference grammar and evaluator

Modelled from the spec, not from the source: a reference infix evaluator in
which `*` and `/` bind tighter than `+` and `-` and equal-precedence
operators associate left to right.  The grammar is the standard unambiguous
layering (expression / term / factor) whose left-recursive productions encode
left-associativity; `Parses lvl ts e` states that the token list `ts` reads
as the syntax tree `e` at grammar level `lvl`. -/

/-- Syntax tree of the reference reading: a number token or a binary node. -/
inductive Expr where
  | num : String → Expr
  | bin : JVal → Expr → Expr → Expr
deriving DecidableEq, Repr

/-- Postfix (RPN) serialization of a syntax tree: left operand, right operand,
operator. -/
def rpnOf : Expr → List JVal
  | .num s => [.str s]
  | .bin op l r => rpnOf l ++ rpnOf r ++ [op]

/-- Reference infix evaluator, modelled from the spec's words: evaluate the
tree bottom-up, applying the operator to the left and right values.  Number
tokens denote their parseFloat value, so both the reference and the pipeline
read a numeral the same way. -/
def evalAst : Expr → JNum
  | .num s => jparseFloat (.str s)
  | .bin op l r =>
    if op = tokMinus then jsub (evalAst l) (evalAst r)
    else if op = tokPlus then jadd (evalAst l) (evalAst r)
    else if op = tokStar then jmul (evalAst l) (evalAst r)
    else if op = tokSlash then jdiv (evalAst l) (evalAst r)
    else .nan

/-- Well-formed syntax tree: leaves are numeric tokens and operators are among
the four arithmetic symbols. -/
def WFe : Expr → Prop
  | .num s => jvalIsNumeric (.str s) = true
  | .bin op l r =>
    (op = tokPlus ∨ op = tokMinus ∨ op = tokStar ∨ op = tokSlash) ∧ WFe l ∧ WFe r

/-- Grammar level: full expression, multiplicative term, or atomic factor. -/
inductive Lvl where
  | expr | term | factor
deriving DecidableEq, Repr

/-- The reference grammar (modelled from the spec): `expr` is a left-nested
chain of terms joined by additive operators, `term` a left-nested chain of
factors joined by multiplicative operators, and `factor` a number token or a
parenthesized expression. -/
inductive Parses : Lvl → List JVal → Expr → Prop where
  | num {s : String} :
      jvalIsNumeric (.str s) = true → Parses .factor [.str s] (.num s)
  | paren {ts : List JVal} {e : Expr} :
      Parses .expr ts e → Parses .factor (tokLP :: ts ++ [tokRP]) e
  | tf {ts : List JVal} {e : Expr} :
      Parses .factor ts e → Parses .term ts e
  | tmul {ts us : List JVal} {e f : Expr} {op : JVal} :
      Parses .term ts e → (op = tokStar ∨ op = tokSlash) →
      Parses .factor us f → Parses .term (ts ++ op :: us) (.bin op e f)
  | et {ts : List JVal} {e : Expr} :
      Parses .term ts e → Parses .expr ts e
  | eadd {ts us : List JVal} {e f : Expr} {op : JVal} :
      Parses .expr ts e → (op = tokPlus ∨ op = tokMinus) →
      Parses .term us f → Parses .expr (ts ++ op :: us) (.bin op e f)

/-- Every tree produced by the grammar is well-formed. -/
theorem parses_wf : ∀ {lvl ts e}, Parses lvl ts e → WFe e := by
  intro lvl ts e h
  induction h with
  | num hnum => exact hnum
  | paren _ ih => exact ih
  | tf _ ih => exact ih
  | tmul _ hop _ ih1 ih2 =>
    exact ⟨by rcases hop with h | h <;> simp [h], ih1, ih2⟩
  | et _ ih => exact ih
  | eadd _ hop _ ih1 ih2 =>
    exact ⟨by rcases hop with h | h <;> simp [h], ih1, ih2⟩

/-! ## Correctness of the postfix evaluator on serialized trees -/

/-- Folding the evaluator's step function over the postfix serialization of a
well-formed tree pushes exactly the tree's value. -/
theorem rpn_fold_of_wf : ∀ (e : Expr), WFe e →
    ∀ st : List JNum, List.foldl rpnStep st (rpnOf e) = evalAst e :: st := by
  intro e
  induction e with
  | num s =>
    intro h st
    simp only [WFe] at h
    simp [rpnOf, rpnStep, evalAst, h]
  | bin op l r ihl ihr =>
    intro h st
    obtain ⟨hop, hl, hr⟩ := h
    have hnn : jvalIsNumeric op = false := by
      rcases hop with h1 | h1 | h1 | h1 <;> subst h1 <;> decide
    simp only [rpnOf, List.foldl_append, ihl hl, ihr hr]
    rcases hop with h1 | h1 | h1 | h1 <;> subst h1 <;>
      simp +decide [rpnStep, popNum, evalAst, hnn]

/-- The full evaluator applied to the postfix serialization of a well-formed
tree returns the tree's value. -/
theorem compute_rpn_rpnOf (e : Expr) (h : WFe e) :
    compute_rpn (rpnOf e) = evalAst e := by
  simp [compute_rpn, rpn_fold_of_wf e h, popNum]

/-! ## Correctness of the converter on parsed token lists -/

/-- Running the converter's main loop over a concatenation processes the two
parts in sequence. -/
theorem syRun_append : ∀ (as bs : List JVal) (q s : List JVal),
    syRun (as ++ bs) q s = (syRun as q s).bind (fun p => syRun bs p.1 p.2) := by
  intro as
  induction as with
  | nil => intro bs q s; simp [syRun]
  | cons t as ih =>
    intro bs q s
    simp only [List.cons_append, syRun]
    by_cases h1 : jvalIsNumeric t
    · simp only [h1, if_true]; exact ih bs (q ++ [t]) s
    · simp only [h1, if_false]
      by_cases h2 : t = tokLP
      · simp only [h2, if_true]; exact ih bs q (tokLP :: s)
      · simp only [h2, if_false]
        by_cases h3 : t = tokRP
        · simp only [h3, if_true]
          cases hp : popUntilLParen q s with
          | none => simp
          | some p => simp only [Option.bind_some]; exact ih bs p.1 p.2
        · simp only [h3, if_false]
          exact ih bs (popGE (getPrecedence t) q s).1 (t :: (popGE (getPrecedence t) q s).2)

/-- Popping with threshold `p` from a stack whose upper part consists of
operators of precedence at least `p`, sitting on a stack whose top is below
`p`, moves exactly the upper part to the queue. -/
theorem popGE_split : ∀ (pend : List JVal) (p : Int) (q s : List JVal),
    (∀ x ∈ pend, p ≤ getPrecedence x) →
    (s = [] ∨ getPrecedence (jsPeek s) < p) →
    popGE p q (pend ++ s) = (q ++ pend, s) := by
  intro pend
  induction pend with
  | nil =>
    intro p q s _ hs
    rcases hs with hs | hs
    · subst hs; simp [popGE]
    · cases s with
      | nil => simp [popGE]
      | cons x s2 =>
        simp only [jsPeek, List.headD] at hs
        simp [popGE, not_le.mpr hs]
  | cons y pend ih =>
    intro p q s hp hs
    have hy : p ≤ getPrecedence y := hp y (by simp)
    simp only [List.cons_append, popGE, hy, if_true]
    show popGE p (q ++ [y]) (pend ++ s) = (q ++ y :: pend, s)
    rw [ih p (q ++ [y]) s (fun x hx => hp x (by simp [hx])) hs]
    simp

/-- The right-parenthesis loop pops the pending operators (none of which is a
left parenthesis) into the queue, then discards the matching parenthesis. -/
theorem popUntilLParen_split : ∀ (pend : List JVal) (q s : List JVal),
    (∀ x ∈ pend, x ≠ tokLP) →
    popUntilLParen q (pend ++ tokLP :: s) = some (q ++ pend, s) := by
  intro pend
  induction pend with
  | nil => intro q s _; simp [popUntilLParen]
  | cons y pend ih =>
    intro q s hp
    have hy : y ≠ tokLP := hp y (by simp)
    simp only [List.cons_append, popUntilLParen, hy, if_false]
    show popUntilLParen (q ++ [y]) (pend ++ tokLP :: s) = some (q ++ y :: pend, s)
    rw [ih (q ++ [y]) s (fun x hx => hp x (by simp [hx]))]
    simp

/-- Constraint on the operator stack under which a phrase of the given grammar
level is processed: a term is only entered with a top of precedence below 2, a
full expression with a top below 1 (in particular a left parenthesis or an
empty stack). -/
def stackOK : Lvl → List JVal → Prop
  | .factor, _ => True
  | .term, s => s = [] ∨ getPrecedence (jsPeek s) < 2
  | .expr, s => s = [] ∨ getPrecedence (jsPeek s) < 1

/-- Shape of the operators a phrase leaves on top of the stack: a factor
leaves nothing, a term at most multiplicative operators, an expression
operators of precedence at least 1. -/
def pendOK : Lvl → List JVal → Prop
  | .factor, pend => pend = []
  | .term, pend => ∀ x ∈ pend, getPrecedence x = 2
  | .expr, pend => ∀ x ∈ pend, 1 ≤ getPrecedence x

/-- Invariant of the shunting-yard main loop: processing the tokens of a
phrase from a stack satisfying the level's constraint appends the phrase's
postfix serialization to queue-plus-pending, leaving the original stack below
the pending operators. -/
theorem syRun_spec : ∀ {lvl ts e}, Parses lvl ts e → ∀ q s, stackOK lvl s →
    ∃ q2 pend, syRun ts q s = some (q2, pend ++ s) ∧
      q2 ++ pend = q ++ rpnOf e ∧ pendOK lvl pend := by
  intro lvl ts e h
  induction h with
  | @num s0 hnum =>
    intro q s _
    refine ⟨q ++ [JVal.str s0], [], ?_, by simp [rpnOf], rfl⟩
    simp [syRun, hnum]
  | @paren ts0 e0 hinner ih =>
    intro q s _
    obtain ⟨q2, pend, hrun, hq, hpend⟩ :=
      ih q (tokLP :: s) (Or.inr (by show getPrecedence tokLP < 1; decide))
    have hnp : ∀ x ∈ pend, x ≠ tokLP := by
      intro x hx hEq
      have h2 := hpend x hx
      rw [hEq] at h2
      exact absurd h2 (by decide)
    have hpop := popUntilLParen_split pend q2 s hnp
    refine ⟨q2 ++ pend, [], ?_, by simpa using hq, rfl⟩
    have hstep : syRun (tokLP :: ts0 ++ [tokRP]) q s
        = syRun (ts0 ++ [tokRP]) q (tokLP :: s) := by
      simp +decide [syRun]
    rw [hstep, syRun_append, hrun]
    show syRun [tokRP] q2 (pend ++ tokLP :: s) = some (q2 ++ pend, [] ++ s)
    simp +decide [syRun, hpop]
  | @tf ts0 e0 hf ih =>
    intro q s _
    obtain ⟨q2, pend, hrun, hq, hpend⟩ := ih q s trivial
    rw [show pend = [] from hpend] at hrun hq
    exact ⟨q2, [], hrun, hq, by intro x hx; simp at hx⟩
  | @tmul ts0 us0 e0 f0 op hT hop hF ihT ihF =>
    intro q s hs
    simp only [stackOK] at hs
    obtain ⟨q1, p1, hrun1, hq1, hp1⟩ := ihT q s hs
    have hnn : jvalIsNumeric op = false := by
      rcases hop with h1 | h1 <;> subst h1 <;> decide
    have hlp : ¬(op = tokLP) := by rcases hop with h1 | h1 <;> subst h1 <;> decide
    have hrp : ¬(op = tokRP) := by rcases hop with h1 | h1 <;> subst h1 <;> decide
    have hprec : getPrecedence op = 2 := by
      rcases hop with h1 | h1 <;> subst h1 <;> decide
    have hpop : popGE (getPrecedence op) q1 (p1 ++ s) = (q1 ++ p1, s) := by
      apply popGE_split
      · intro x hx; rw [hprec, hp1 x hx]
      · rcases hs with h1 | h1
        · exact Or.inl h1
        · exact Or.inr (by rw [hprec]; exact h1)
    obtain ⟨q2, p2, hrun2, hq2, hp2⟩ := ihF (q1 ++ p1) (op :: s) trivial
    rw [show p2 = [] from hp2] at hrun2 hq2
    simp only [List.nil_append, List.append_nil] at hrun2 hq2
    refine ⟨q2, [op], ?_, ?_, ?_⟩
    · rw [syRun_append, hrun1]
      show syRun (op :: us0) q1 (p1 ++ s) = some (q2, [op] ++ s)
      simp only [syRun, hnn, Bool.false_eq_true, if_false, hlp, hrp, hpop]
      simpa using hrun2
    · rw [show q2 ++ [op] = (q2 ++ [] : List JVal) ++ [op] by simp, hq2, hq1]
      simp [rpnOf]
    · intro x hx
      simp only [List.mem_singleton] at hx
      rw [hx]; exact hprec
  | @et ts0 e0 ht ih =>
    intro q s hs
    simp only [stackOK] at hs
    have hs2 : stackOK .term s := by
      rcases hs with h1 | h1
      · exact Or.inl h1
      · exact Or.inr (by omega)
    obtain ⟨q2, pend, hrun, hq, hpend⟩ := ih q s hs2
    refine ⟨q2, pend, hrun, hq, ?_⟩
    intro x hx
    rw [hpend x hx]
    norm_num
  | @eadd ts0 us0 e0 f0 op hE hop hT ihE ihT =>
    intro q s hs
    simp only [stackOK] at hs
    obtain ⟨q1, p1, hrun1, hq1, hp1⟩ := ihE q s hs
    have hnn : jvalIsNumeric op = false := by
      rcases hop with h1 | h1 <;> subst h1 <;> decide
    have hlp : ¬(op = tokLP) := by rcases hop with h1 | h1 <;> subst h1 <;> decide
    have hrp : ¬(op = tokRP) := by rcases hop with h1 | h1 <;> subst h1 <;> decide
    have hprec : getPrecedence op = 1 := by
      rcases hop with h1 | h1 <;> subst h1 <;> decide
    have hpop : popGE (getPrecedence op) q1 (p1 ++ s) = (q1 ++ p1, s) := by
      apply popGE_split
      · intro x hx; rw [hprec]; exact hp1 x hx
      · rcases hs with h1 | h1
        · exact Or.inl h1
        · exact Or.inr (by rw [hprec]; exact h1)
    obtain ⟨q2, p2, hrun2, hq2, hp2⟩ :=
      ihT (q1 ++ p1) (op :: s) (Or.inr (by show getPrecedence op < 2; omega))
    refine ⟨q2, p2 ++ [op], ?_, ?_, ?_⟩
    · rw [syRun_append, hrun1]
      show syRun (op :: us0) q1 (p1 ++ s) = some (q2, (p2 ++ [op]) ++ s)
      simp only [syRun, hnn, Bool.false_eq_true, if_false, hlp, hrp, hpop]
      rw [hrun2]
      simp
    · rw [← List.append_assoc, hq2, hq1]
      simp [rpnOf]
    · intro x hx
      rcases List.mem_append.mp hx with h1 | h1
      · rw [hp2 x h1]; norm_num
      · simp only [List.mem_singleton] at h1
        rw [h1]; omega

/-! ## Termination of the converter: fuel machine versus structural model -/

/-- On an empty operator stack the right-parenthesis loop never finishes: no
amount of fuel gives a result, because each iteration enqueues `undefined` and
leaves the stack empty. -/
theorem popUntilLParenF_empty : ∀ (n : Nat) (q : List JVal),
    popUntilLParenF n q [] = none := by
  intro n
  induction n with
  | zero => intro q; rfl
  | succ n ih =>
    intro q
    simp +decide [popUntilLParenF, jsPeek, ih]

/-- Fuel monotonicity of the right-parenthesis loop. -/
theorem popUntilLParenF_mono : ∀ (n m : Nat) (q s : List JVal)
    (r : List JVal × List JVal), n ≤ m →
    popUntilLParenF n q s = some r → popUntilLParenF m q s = some r := by
  intro n
  induction n with
  | zero => intro m q s r _ h; simp [popUntilLParenF] at h
  | succ n ih =>
    intro m q s r hnm h
    obtain ⟨m2, rfl⟩ : ∃ m2, m = m2 + 1 := ⟨m - 1, by omega⟩
    simp only [popUntilLParenF] at h ⊢
    by_cases hc : jsPeek s = tokLP
    · simpa [hc] using h
    · simp only [hc, if_false] at h ⊢
      exact ih m2 _ _ _ (by omega) h

/-- When the structural right-parenthesis loop succeeds, some finite fuel
reproduces the result. -/
theorem popUntilLParen_toF : ∀ (s q : List JVal) (r : List JVal × List JVal),
    popUntilLParen q s = some r → ∃ n, popUntilLParenF n q s = some r := by
  intro s
  induction s with
  | nil => intro q r h; simp [popUntilLParen] at h
  | cons x s ih =>
    intro q r h
    simp only [popUntilLParen] at h
    by_cases hc : x = tokLP
    · refine ⟨1, ?_⟩
      rw [hc] at h ⊢
      simp only [if_true, eq_self_iff_true] at h
      simpa [popUntilLParenF, jsPeek] using h
    · simp only [hc, if_false] at h
      obtain ⟨n, hn⟩ := ih (q ++ [x]) r h
      refine ⟨n + 1, ?_⟩
      have hpk : jsPeek (x :: s) = x := rfl
      simp [popUntilLParenF, hpk, hc, hn]

/-- Fuel monotonicity of the converter's main loop. -/
theorem syRunF_mono : ∀ (n m : Nat) (ts q s : List JVal)
    (r : List JVal × List JVal), n ≤ m →
    syRunF n ts q s = some r → syRunF m ts q s = some r := by
  intro n
  induction n with
  | zero => intro m ts q s r _ h; simp [syRunF] at h
  | succ n ih =>
    intro m ts q s r hnm h
    obtain ⟨m2, rfl⟩ : ∃ m2, m = m2 + 1 := ⟨m - 1, by omega⟩
    cases ts with
    | nil => simpa [syRunF] using h
    | cons t ts =>
      simp only [syRunF] at h ⊢
      by_cases h1 : jvalIsNumeric t
      · simp only [h1, if_true] at h ⊢
        exact ih m2 _ _ _ _ (by omega) h
      · simp only [h1, Bool.false_eq_true, if_false] at h ⊢
        by_cases h2 : t = tokLP
        · simp only [h2, if_true] at h ⊢
          exact ih m2 _ _ _ _ (by omega) h
        · simp only [h2, if_false] at h ⊢
          by_cases h3 : t = tokRP
          · simp only [h3, if_true] at h ⊢
            cases hp : popUntilLParenF (n + 1) q s with
            | none => rw [hp] at h; simp at h
            | some p =>
              rw [hp] at h
              rw [popUntilLParenF_mono (n + 1) (m2 + 1) q s p (by omega) hp]
              exact ih m2 _ _ _ _ (by omega) h
          · simp only [h3, if_false] at h ⊢
            exact ih m2 _ _ _ _ (by omega) h

/-- When the structural converter loop succeeds, some finite fuel reproduces
the result: on those inputs the source's loops terminate. -/
theorem syRun_toF : ∀ (ts q s : List JVal) (r : List JVal × List JVal),
    syRun ts q s = some r → ∃ n, syRunF n ts q s = some r := by
  intro ts
  induction ts with
  | nil => intro q s r h; exact ⟨1, by simpa [syRunF, syRun] using h⟩
  | cons t ts ih =>
    intro q s r h
    simp only [syRun] at h
    by_cases h1 : jvalIsNumeric t
    · simp only [h1, if_true] at h
      obtain ⟨n, hn⟩ := ih _ _ _ h
      exact ⟨n + 1, by simp [syRunF, h1, hn]⟩
    · simp only [h1, Bool.false_eq_true, if_false] at h
      by_cases h2 : t = tokLP
      · simp only [h2, if_true] at h
        obtain ⟨n, hn⟩ := ih _ _ _ h
        refine ⟨n + 1, ?_⟩
        simp only [syRunF, h1, Bool.false_eq_true, if_false, h2, if_true]
        exact hn
      · simp only [h2, if_false] at h
        by_cases h3 : t = tokRP
        · simp only [h3, if_true] at h
          cases hp : popUntilLParen q s with
          | none => rw [hp] at h; simp at h
          | some p =>
            rw [hp] at h
            obtain ⟨n1, hn1⟩ := popUntilLParen_toF s q p hp
            obtain ⟨n2, hn2⟩ := ih _ _ _ h
            refine ⟨n1 + n2 + 1, ?_⟩
            simp only [syRunF, h1, Bool.false_eq_true, if_false, h2, h3, if_true]
            rw [popUntilLParenF_mono n1 (n1 + n2 + 1) q s p (by omega) hn1]
            exact syRunF_mono n2 (n1 + n2) _ _ _ _ (by omega) hn2
        · simp only [h3, if_false] at h
          obtain ⟨n, hn⟩ := ih _ _ _ h
          refine ⟨n + 1, ?_⟩
          simp only [syRunF, h1, Bool.false_eq_true, if_false, h2, h3, if_true]
          exact hn

/-- When the structural converter returns a postfix sequence, the fuel-indexed
converter reaches the same sequence with some finite fuel. -/
theorem convertToRpn_toF : ∀ (ts : List JVal) (r : List JVal),
    convertToRpn ts = some r → ∃ n, convertToRpnF n ts = some r := by
  intro ts r h
  simp only [convertToRpn, Option.map_eq_some'] at h
  obtain ⟨p, hp, hflush⟩ := h
  obtain ⟨n, hn⟩ := syRun_toF ts [] [] p hp
  exact ⟨n, by simp [convertToRpnF, hn, hflush]⟩

/-- The converter applied to a lone right parenthesis makes no progress at any
fuel: the inner loop spins on the empty stack forever. -/
theorem convertToRpnF_rparen : ∀ (n : Nat), convertToRpnF n [tokRP] = none := by
  intro n
  cases n with
  | zero => rfl
  | succ n =>
    simp +decide [convertToRpnF, syRunF, popUntilLParenF_empty]

/-- Termination predicate for `compute_infix` on a token stream: some finite
fuel lets the fuel-indexed machine produce a postfix sequence. -/
def syTerminates (ts : List JVal) : Prop := ∃ n r, convertToRpnF n ts = some r

/-! ## Claims -/

/-- C1: for every token sequence that forms a well-formed infix expression
(numbers and the binary operators with balanced parentheses, as generated by
the reference grammar at level `expr`), running the converter and then the
postfix evaluator yields the same numeric result as the reference infix
evaluator in which multiplicative operators bind tighter than additive ones
and equal-precedence operators associate left to right. -/
theorem claim1_round_trip : ∀ (ts : List JVal) (e : Expr), Parses .expr ts e →
    (convertToRpn ts).map compute_rpn = some (evalAst e) := by
  intro ts e h
  obtain ⟨q2, pend, hrun, hq, _⟩ := syRun_spec h [] [] (Or.inl rfl)
  simp only [List.nil_append] at hq
  have hconv : convertToRpn ts = some (rpnOf e) := by
    simp only [convertToRpn, hrun, Option.map_some']
    simp [hq]
  rw [hconv, Option.map_some', compute_rpn_rpnOf e (parses_wf h)]

/-- Concrete derivation used by the round-trip witness: the token sequence of
2+3*4 parses as 2+(3*4) with the multiplication nested to the right. -/
theorem parse_two_plus_three_times_four : Parses .expr
    [JVal.str ("2"), tokPlus, JVal.str ("3"), tokStar, JVal.str ("4")]
    (.bin tokPlus (.num ("2")) (.bin tokStar (.num ("3")) (.num ("4")))) := by
  have h2 : Parses .factor [JVal.str ("2")] (.num ("2")) := Parses.num (by decide)
  have h3 : Parses .factor [JVal.str ("3")] (.num ("3")) := Parses.num (by decide)
  have h4 : Parses .factor [JVal.str ("4")] (.num ("4")) := Parses.num (by decide)
  exact Parses.eadd (.et (.tf h2)) (Or.inl rfl) (.tmul (.tf h3) (Or.inl rfl) h4)

/-- Witness for C1: on the tokens of 2+3*4 the pipeline and the reference
evaluator both give 14. -/
theorem claim1_round_trip_witness :
    (convertToRpn [JVal.str ("2"), tokPlus, JVal.str ("3"), tokStar,
        JVal.str ("4")]).map compute_rpn = some (JNum.fin 14) := by
  have h := claim1_round_trip _ _ parse_two_plus_three_times_four
  rw [h]
  with_unfolding_all decide

/-- C2 counterexample: the converter does not terminate on the unbalanced
token sequence consisting of a single right parenthesis — no amount of fuel
lets the fuel-indexed machine finish, because the inner loop keeps popping
the empty stack (a no-op) looking for a left parenthesis. -/
theorem claim2_nonterminating_cex : ¬ syTerminates [tokRP] := by
  rintro ⟨n, r, h⟩
  rw [convertToRpnF_rparen n] at h
  exact Option.noConfusion h

/-- C2 amended: the converter terminates exactly on the token sequences where
the structural model returns a postfix sequence (every right parenthesis
finds a left parenthesis on the stack); on a lone right parenthesis it makes
no progress at any fuel. -/
theorem claim2_termination_amended :
    (∀ (ts : List JVal) (r : List JVal),
        convertToRpn ts = some r → ∃ n, convertToRpnF n ts = some r)
    ∧ (∀ n : Nat, convertToRpnF n [tokRP] = none) :=
  ⟨convertToRpn_toF, convertToRpnF_rparen⟩

/-- Witness for C2: on the tokens of 8-3 the converter terminates with the
postfix sequence 8 3 -. -/
theorem claim2_termination_witness :
    ∃ n, convertToRpnF n [JVal.str ("8"), tokMinus, JVal.str ("3")]
      = some [JVal.str ("8"), JVal.str ("3"), tokMinus] :=
  claim2_termination_amended.1 _ _ (by decide)

/-- C3 counterexample: on the unclosed-parenthesis token sequence ( 1 + 2 the
converter raises nothing; it completes and flushes the leftover left
parenthesis into the postfix output. -/
theorem claim3_no_error_cex :
    convertToRpn [tokLP, JVal.str ("1"), tokPlus, JVal.str ("2")]
      = some [JVal.str ("1"), JVal.str ("2"), tokPlus, tokLP] := by decide

/-- C3 amended: the converter never raises an error for unbalanced
parentheses.  A right parenthesis processed with no left parenthesis on the
stack makes the inner loop run forever (the structural model marks the branch
`none` and the fuel machine never finishes); a leftover left parenthesis
after the input is exhausted is flushed into the postfix output; and the raw
string with an unclosed parenthesis already crashes inside the tokenizer with
a TypeError before conversion starts. -/
theorem claim3_mismatched_amended :
    convertToRpn [tokRP] = none
    ∧ (∀ n : Nat, convertToRpnF n [tokRP] = none)
    ∧ (convertToRpn [tokLP, JVal.str ("1"), tokPlus, JVal.str ("2")]).isSome = true
    ∧ makeString ("(1+2") = none :=
  ⟨by decide, convertToRpnF_rparen, by decide, by decide⟩

/-- C4 counterexample: evaluating the input +1 never reaches the postfix
evaluator: the tokenizer itself crashes with a TypeError (reading `.concat`
of the undefined slot `temp[2]`), modelled by `none`. -/
theorem claim4_no_eval_error_cex : makeString ("+1") = none := by decide

/-- C4 amended: the whole pipeline on the input +1 fails inside the
tokenizer, not with an evaluation error; and popping an empty operand stack
in the evaluator raises nothing — it returns `undefined`, whose parseFloat
is NaN, so an underflowing postfix sequence such as 1 + evaluates to NaN. -/
theorem claim4_evaluator_amended :
    evaluateExpression ("+1") = none
    ∧ (popNum []).1 = JNum.nan
    ∧ compute_rpn [JVal.str ("1"), tokPlus] = JNum.nan :=
  ⟨by decide, rfl, by decide⟩

/-- C5 counterexample: the tokenizer raises no error on the unrecognized
character a; it emits it as an ordinary single-character token. -/
theorem claim5_no_token_error_cex :
    makeString ("a") = some [JVal.str ("a")] := by decide

/-- C5 amended: the tokenizer never raises an error for an unrecognized
character: any single character that does not coerce to a number (neither a
digit nor whitespace) is emitted as its own one-character token. -/
theorem claim5_tokenizer_amended : ∀ (c : Char), jsCharNumeric c = false →
    makeString (String.singleton c) = some [JVal.str (String.singleton c)] := by
  intro c hc
  have hsne : String.singleton c ≠ ("") := by
    intro hEq
    have hd : [c] = ([] : List Char) := congrArg String.data hEq
    simp at hd
  have hne : (JVal.str (String.singleton c) != emptyTok) = true := by
    simp [bne_iff_ne, emptyTok, hsne]
  have hrun : msLoop [c] [emptyTok] 0
      = some [emptyTok, JVal.str (String.singleton c)] := by
    simp [msLoop, hc, jsArraySet]
  have hms : makeString (String.singleton c)
      = (some [emptyTok, JVal.str (String.singleton c)]).map
          (List.filter (fun t => t != emptyTok)) := by
    rw [← hrun]; rfl
  rw [hms]
  simp [List.filter, hne]

/-- Witness for C5: the percent character is not numeric and is tokenized as
a single-character token with no error. -/
theorem claim5_tokenizer_witness :
    jsCharNumeric '%' = false
    ∧ makeString (String.singleton '%') = some [JVal.str (String.singleton '%')] :=
  ⟨by decide, claim5_tokenizer_amended '%' (by decide)⟩

/-- C6: evaluating 5/0 through the full pipeline returns positive infinity
and no error; in general dividing a finite number by zero yields a non-finite
value — NaN for 0/0 and a signed infinity otherwise. -/
theorem claim6_division_by_zero :
    evaluateExpression ("5/0") = some (JNum.inf false)
    ∧ (∀ a : ℚ, (jdiv (JNum.fin a) (JNum.fin 0)).isFinite = false)
    ∧ jdiv (JNum.fin 0) (JNum.fin 0) = JNum.nan
    ∧ jdiv (JNum.fin (-5)) (JNum.fin 0) = JNum.inf true := by
  refine ⟨by decide, ?_, by decide, by decide⟩
  intro a
  by_cases ha : a = 0
  · simp [jdiv, ha, JNum.isFinite]
  · simp [jdiv, ha, JNum.isFinite]

/-- C7: evaluating 8-3-2 through the full pipeline returns 3, not 7:
equal-precedence operators are applied left to right, via the converter's
less-or-equal precedence comparison and the evaluator popping the right
operand first. -/
theorem claim7_left_assoc :
    evaluateExpression ("8-3-2") = some (JNum.fin 3)
    ∧ evaluateExpression ("8-3-2") ≠ some (JNum.fin 7) := by
  constructor <;> with_unfolding_all decide

/-- C8: on the input 12+3*(4-1) the tokenizer concatenates adjacent digits
into the single token 12, the converter produces the postfix sequence
12 3 4 1 - * +, and the evaluator returns 21. -/
theorem claim8_multidigit :
    makeString ("12+3*(4-1)")
      = some [JVal.str ("12"), tokPlus, JVal.str ("3"), tokStar, tokLP,
          JVal.str ("4"), tokMinus, JVal.str ("1"), tokRP]
    ∧ convertToRpn [JVal.str ("12"), tokPlus, JVal.str ("3"), tokStar, tokLP,
          JVal.str ("4"), tokMinus, JVal.str ("1"), tokRP]
      = some [JVal.str ("12"), JVal.str ("3"), JVal.str ("4"), JVal.str ("1"),
          tokMinus, tokStar, tokPlus]
    ∧ evaluateExpression ("12+3*(4-1)") = some (JNum.fin 21) :=
  ⟨by decide, by decide, by with_unfolding_all decide⟩

/-- C9 counterexample: clearing an engine whose stream queue holds a token
leaves that token in place — the stream buffer is not empty after `clear`. -/
theorem claim9_clear_cex :
    (SYState.mk [JVal.str ("1")] [] []).clear.stream = [JVal.str ("1")]
    ∧ [JVal.str ("1")] ≠ ([] : List JVal) :=
  ⟨rfl, by decide⟩

/-- C9 amended: `clear` empties the output queue and the operator stack but
leaves the token stream queue untouched; it is idempotent, so clearing twice
equals clearing once. -/
theorem claim9_clear_amended : ∀ st : SYState,
    st.clear.q = [] ∧ st.clear.s = [] ∧ st.clear.stream = st.stream
    ∧ st.clear.clear = st.clear :=
  fun _ => ⟨rfl, rfl, rfl, rfl⟩

/-- C10: the postfix evaluator is total — it returns a number for every token
sequence; popping the empty operand stack yields NaN (undefined through
parseFloat) rather than an error, and an operator token other than the four
arithmetic symbols pops two operands and pushes nothing. -/
theorem claim10_rpn_total :
    (∀ q : List JVal, ∃ r : JNum, compute_rpn q = r)
    ∧ (popNum ([] : List JNum)).1 = JNum.nan
    ∧ (∀ (t : JVal) (st : List JNum), jvalIsNumeric t = false →
        t ≠ tokPlus → t ≠ tokMinus → t ≠ tokStar → t ≠ tokSlash →
        rpnStep st t = (popNum (popNum st).2).2) := by
  refine ⟨fun q => ⟨compute_rpn q, rfl⟩, rfl, ?_⟩
  intro t st h1 h2 h3 h4 h5
  simp [rpnStep, h1, h2, h3, h4, h5]

/-- Witness for C10: the unknown operator token percent, applied to a stack
holding one value, pops two (underflowing to nothing) and pushes nothing. -/
theorem claim10_rpn_total_witness :
    jvalIsNumeric (JVal.str ("%")) = false
    ∧ rpnStep [JNum.fin 5] (JVal.str ("%")) = [] := by
  refine ⟨by decide, ?_⟩
  have h := claim10_rpn_total.2.2 (JVal.str ("%")) [JNum.fin 5]
    (by decide) (by decide) (by decide) (by decide) (by decide)
  simpa [popNum] using h

end SYCalc

